import Mathlib

/-!
Verification of the TWFF process-log integrity engine.

This file is a shallow embedding, in Lean 4, of the Python source in
`spec/verification/verify_process_log.py` and
`spec/verification/validate_examples.py`:

* an executable SHA-256 over `Nat` (FIPS 180-4), used to model
  `hashlib.sha256(...).hexdigest()`;
* a UTF-8 encoder modelling `str.encode("utf-8")`;
* a canonical JSON encoder modelling
  `json.dumps(v, separators=(",", ":"), sort_keys=True)`;
* the event / process-log data model, and the operations
  `compute_event_hash`, `verify_hash_chain`, `add_hash_chain`,
  `verify_process_log`, and the structural sanity check from `main`;
* theorems settling the specification claims about these operations.

Console messages carry no program logic, so findings are modelled as a
datatype recording the same data the formatted strings carry, each tagged
with the severity (`ok` / `warn` / `fail`) of the Python wrapper used to
print it.
-/

set_option maxRecDepth 1000000

namespace TWFF

/-! ## SHA-256 over `Nat`, faithful to FIPS 180-4 -/

/-- Truncate to a 32-bit word. -/
def w32 (n : Nat) : Nat := n % 4294967296

/-- Right rotation of a 32-bit word. -/
def rotr (n x : Nat) : Nat := w32 ((x >>> n) ||| (x <<< (32 - n)))

/-- SHA-256 choice function; complement is xor with `2 ^ 32 - 1`. -/
def ch (x y z : Nat) : Nat := (x &&& y) ^^^ ((x ^^^ 4294967295) &&& z)

/-- SHA-256 majority function. -/
def maj (x y z : Nat) : Nat := (x &&& y) ^^^ (x &&& z) ^^^ (y &&& z)

def bigSigma0 (x : Nat) : Nat := rotr 2 x ^^^ rotr 13 x ^^^ rotr 22 x

def bigSigma1 (x : Nat) : Nat := rotr 6 x ^^^ rotr 11 x ^^^ rotr 25 x

def smallSigma0 (x : Nat) : Nat := rotr 7 x ^^^ rotr 18 x ^^^ (x >>> 3)

def smallSigma1 (x : Nat) : Nat := rotr 17 x ^^^ rotr 19 x ^^^ (x >>> 10)

/-- The 64 SHA-256 round constants. -/
def K : List Nat :=
  [0x428A2F98, 0x71374491, 0xB5C0FBCF, 0xE9B5DBA5, 0x3956C25B, 0x59F111F1,
   0x923F82A4, 0xAB1C5ED5, 0xD807AA98, 0x12835B01, 0x243185BE, 0x550C7DC3,
   0x72BE5D74, 0x80DEB1FE, 0x9BDC06A7, 0xC19BF174, 0xE49B69C1, 0xEFBE4786,
   0x0FC19DC6, 0x240CA1CC, 0x2DE92C6F, 0x4A7484AA, 0x5CB0A9DC, 0x76F988DA,
   0x983E5152, 0xA831C66D, 0xB00327C8, 0xBF597FC7, 0xC6E00BF3, 0xD5A79147,
   0x06CA6351, 0x14292967, 0x27B70A85, 0x2E1B2138, 0x4D2C6DFC, 0x53380D13,
   0x650A7354, 0x766A0ABB, 0x81C2C92E, 0x92722C85, 0xA2BFE8A1, 0xA81A664B,
   0xC24B8B70, 0xC76C51A3, 0xD192E819, 0xD6990624, 0xF40E3585, 0x106AA070,
   0x19A4C116, 0x1E376C08, 0x2748774C, 0x34B0BCB5, 0x391C0CB3, 0x4ED8AA4A,
   0x5B9CCA4F, 0x682E6FF3, 0x748F82EE, 0x78A5636F, 0x84C87814, 0x8CC70208,
   0x90BEFFFA, 0xA4506CEB, 0xBEF9A3F7, 0xC67178F2]

/-- The SHA-256 initial hash value. -/
def H0 : List Nat :=
  [0x6A09E667, 0xBB67AE85, 0x3C6EF372, 0xA54FF53A,
   0x510E527F, 0x9B05688C, 0x1F83D9AB, 0x5BE0CD19]

/-- Big-endian byte expansion of `n`, exactly `k` bytes. -/
def beBytes (k n : Nat) : List Nat :=
  match k with
  | 0 => []
  | k + 1 => beBytes k (n / 256) ++ [n % 256]

/-- SHA-256 padding: append `0x80`, zero bytes up to 56 mod 64, and the
64-bit big-endian bit length. -/
def padMessage (msg : List Nat) : List Nat :=
  let len := msg.length
  let zeros := (120 - ((len + 1) % 64)) % 64
  msg ++ [128] ++ List.replicate zeros 0 ++ beBytes 8 (8 * len)

def toBlocksF : Nat → List Nat → List (List Nat)
  | _, [] => []
  | 0, _ => []
  | fuel + 1, l => l.take 64 :: toBlocksF fuel (l.drop 64)

/-- Split a byte list into 64-byte blocks. -/
def toBlocks (l : List Nat) : List (List Nat) := toBlocksF l.length l

/-- Pack bytes into 32-bit big-endian words. -/
def toWords : List Nat → List Nat
  | a :: b :: c :: d :: rest =>
      (a * 16777216 + b * 65536 + c * 256 + d) :: toWords rest
  | _ => []

/-- Extend the 16 message words of a block to the 64 schedule words. -/
def scheduleGo : Nat → List Nat → List Nat
  | 0, ws => ws
  | fuel + 1, ws =>
      let n := ws.length
      let w := w32 (smallSigma1 (ws.getD (n - 2) 0) + ws.getD (n - 7) 0 +
                    smallSigma0 (ws.getD (n - 15) 0) + ws.getD (n - 16) 0)
      scheduleGo fuel (ws ++ [w])

/-- One round of the SHA-256 compression function on the 8-word state. -/
def compressStep : List Nat → Nat × Nat → List Nat
  | [a, b, c, d, e, f, g, h], (k, w) =>
      let t1 := w32 (h + bigSigma1 e + ch e f g + k + w)
      let t2 := w32 (bigSigma0 a + maj a b c)
      [w32 (t1 + t2), a, b, c, w32 (d + t1), e, f, g]
  | s, _ => s

/-- Compress one 64-byte block into the running hash value. -/
def compressBlock (hv : List Nat) (block : List Nat) : List Nat :=
  let ws := scheduleGo 48 (toWords block)
  let final := (K.zip ws).foldl compressStep hv
  (hv.zip final).map (fun p => w32 (p.1 + p.2))

/-- The SHA-256 digest (32 bytes) of a byte list. -/
def sha256Bytes (msg : List Nat) : List Nat :=
  let hv := (toBlocks (padMessage msg)).foldl compressBlock H0
  (hv.map (beBytes 4)).flatten

/-- Lowercase hexadecimal digit for `n < 16`. -/
def hexDigit (n : Nat) : Char :=
  if n < 10 then Char.ofNat (48 + n) else Char.ofNat (87 + n)

/-- Two lowercase hex digits of a byte. -/
def byteToHex (b : Nat) : String :=
  String.mk [hexDigit (b / 16), hexDigit (b % 16)]

/-- Lowercase hex rendering of a byte list. -/
def bytesToHex : List Nat → String
  | [] => ""
  | b :: rest => byteToHex b ++ bytesToHex rest

/-- UTF-8 encoding of one character. -/
def utf8Char (c : Char) : List Nat :=
  let n := c.toNat
  if n < 128 then [n]
  else if n < 2048 then [192 + n / 64, 128 + n % 64]
  else if n < 65536 then [224 + n / 4096, 128 + (n / 64) % 64, 128 + n % 64]
  else [240 + n / 262144, 128 + (n / 4096) % 64, 128 + (n / 64) % 64, 128 + n % 64]

/-- UTF-8 encoding of a string, modelling Python's `s.encode("utf-8")`. -/
def utf8 (s : String) : List Nat := (s.data.map utf8Char).flatten

/-- Lowercase-hex SHA-256 of the UTF-8 bytes of a string: the model of
Python's `hashlib.sha256(s.encode("utf-8")).hexdigest()`. -/
def sha256HexOfString (s : String) : String := bytesToHex (sha256Bytes (utf8 s))

/-! ## Code-point lexicographic order on strings

Python compares `str` values code point by code point; `sorted()` and
`json.dumps(..., sort_keys=True)` use exactly this order. -/

/-- Strict code-point lexicographic order on char lists. -/
def charsLt : List Char → List Char → Bool
  | [], [] => false
  | [], _ :: _ => true
  | _ :: _, [] => false
  | a :: as, b :: bs =>
      if a.toNat < b.toNat then true
      else if b.toNat < a.toNat then false
      else charsLt as bs

/-- Strict order on strings (Python `a < b` on `str`). -/
def strLt (a b : String) : Bool := charsLt a.data b.data

/-- Non-strict order on strings (Python `a <= b` on `str`). -/
def strLe (a b : String) : Bool := !(strLt b a)

/-- The non-strict string order as a proposition, for `List.insertionSort`. -/
def SLe (a b : String) : Prop := strLe a b = true

instance : DecidableRel SLe := fun a b => inferInstanceAs (Decidable (strLe a b = true))

/-! ## JSON values and the canonical encoder

`Jval` models the JSON values a process-log document is built from.
It is declared as a mutual (rather than nested) inductive so that the
encoder below is structurally recursive and evaluates inside the kernel.
`json.dumps` renders floats with `repr`; every number in a process log is
an integer, so `num` carries an `Int`. -/

mutual

inductive Jval where
  | null : Jval
  | bool (b : Bool) : Jval
  | num (n : Int) : Jval
  | str (s : String) : Jval
  | arr (elems : JvalList) : Jval
  | obj (fields : JfieldList) : Jval

inductive JvalList where
  | nil : JvalList
  | cons (head : Jval) (tail : JvalList) : JvalList

inductive JfieldList where
  | nil : JfieldList
  | cons (key : String) (val : Jval) (tail : JfieldList) : JfieldList

end

/-- Four lowercase hex digits, for `\uXXXX` escapes. -/
def hex4 (n : Nat) : String :=
  String.mk [hexDigit (n / 4096 % 16), hexDigit (n / 256 % 16),
             hexDigit (n / 16 % 16), hexDigit (n % 16)]

/-- Escape of a non-printable or non-ASCII character, as Python's
`json.dumps` emits with `ensure_ascii=True` (the default): `\uXXXX`,
using a surrogate pair above the BMP. -/
def uEscape (n : Nat) : String :=
  if n < 65536 then "\\u" ++ hex4 n
  else
    let m := n - 65536
    "\\u" ++ hex4 (55296 + m / 1024) ++ "\\u" ++ hex4 (56320 + m % 1024)

/-- Per-character JSON string escaping, as in Python's `json` encoder. -/
def escapeChar (c : Char) : String :=
  if c = '"' then "\\\""
  else if c = '\\' then "\\\\"
  else if c.toNat = 8 then "\\b"
  else if c.toNat = 9 then "\\t"
  else if c.toNat = 10 then "\\n"
  else if c.toNat = 12 then "\\f"
  else if c.toNat = 13 then "\\r"
  else if c.toNat < 32 || 126 < c.toNat then uEscape c.toNat
  else String.mk [c]

/-- JSON string literal encoding. -/
def encodeString (s : String) : String :=
  "\"" ++ String.join (s.data.map escapeChar) ++ "\""

/-- Join with the compact `,` item separator of `separators=(",", ":")`. -/
def commaJoin : List String → String
  | [] => ""
  | [s] => s
  | s :: rest => s ++ "," ++ commaJoin rest

/-- Object fields are sorted by key in the code-point order Python's
`sorted` uses; values are compared only through their (already encoded)
keys, which are unique in any dict image. -/
def keyLe (a b : String × String) : Prop := SLe a.1 b.1

instance : DecidableRel keyLe := fun a b => inferInstanceAs (Decidable (SLe a.1 b.1))

/-- Strict key order on encoded fields, used to show sorted outputs agree. -/
def keyLt (a b : String × String) : Prop := strLt a.1 b.1 = true

/-- Rendering of one already-encoded object field. -/
def renderField (p : String × String) : String := encodeString p.1 ++ ":" ++ p.2

mutual

/-- Compact JSON encoding with lexicographically sorted object keys: the
model of Python's `json.dumps(v, separators=(",", ":"), sort_keys=True)`.
Fields are encoded first and the encoded pairs sorted by key, which agrees
with Python's sort-then-encode because the sort compares only the (unique)
keys and `insertionSort` is stable. -/
def encodeJval : Jval → String
  | .null => "null"
  | .bool true => "true"
  | .bool false => "false"
  | .num n => toString n
  | .str s => encodeString s
  | .arr es => "[" ++ commaJoin (encodeList es) ++ "]"
  | .obj fs =>
      "\x7b" ++
        commaJoin ((List.insertionSort keyLe (encodeFields fs)).map renderField) ++
        "\x7d"

def encodeList : JvalList → List String
  | .nil => []
  | .cons v rest => encodeJval v :: encodeList rest

def encodeFields : JfieldList → List (String × String)
  | .nil => []
  | .cons k v rest => (k, encodeJval v) :: encodeFields rest

end

/-- View of an association list (a Python dict in insertion order) as a
`JfieldList`. -/
def ofFields : List (String × Jval) → JfieldList
  | [] => .nil
  | (k, v) :: rest => .cons k v (ofFields rest)

/-- Canonical serialization of a dict payload: the model of
`json.dumps(payload, separators=(",", ":"), sort_keys=True)` applied to an
association list in insertion order. -/
def dumpsSorted (fs : List (String × Jval)) : String := encodeJval (.obj (ofFields fs))

/-! ## Data model

An event is a Python dict in insertion order: an association list from
field names to JSON values. A process log has a `session_id`, an ordered
event list, and an optional `_integrity` trailer. The `.get(key, default)`
accesses of the source become total lookups with the same defaults; per
the published schema, `_hash`, `type` and `timestamp` hold strings, so the
string-typed getters read the string payload of those fields. -/

/-- An event record: field name to JSON value, in insertion order. -/
abbrev Event := List (String × Jval)

/-- String payload of a field, with Python's `.get(k, "")` default. -/
def getStrField (e : Event) (k : String) : String :=
  match e.lookup k with
  | some (.str s) => s
  | _ => ""

/-- Model of `event.get("_hash", "")`. -/
def Event.hashField (e : Event) : String := getStrField e "_hash"

/-- Model of `event.get("type")` where it is compared against a string. -/
def Event.typeField (e : Event) : String := getStrField e "type"

/-- Model of `event.get("timestamp", "")`. -/
def Event.timestampField (e : Event) : String := getStrField e "timestamp"

/-- Model of `event[k] = v` on a dict: replace the value of an existing
key in place, else append the new key at the end (dict insertion order). -/
def setField : Event → String → Jval → Event
  | [], k, v => [(k, v)]
  | (k', v') :: rest, k, v =>
      if k' = k then (k, v) :: rest else (k', v') :: setField rest k v

/-- Model of `{k: v for k, v in event.items() if k != "_hash"}`. -/
def stripHash (e : Event) : Event := e.filter (fun p => p.1 ≠ "_hash")

/-- The `_integrity` trailer block written by `add_hash_chain`. -/
structure Integrity where
  algorithm : String
  chain_length : Nat
  head_hash : String
  session_id : String
  note : String
deriving DecidableEq

/-- A process-log document. `session_id` and `events` model
`log.get("session_id", "")` and `log.get("events", [])`; a missing key
and its default are identified. `integrity` models the optional
`_integrity` dict. -/
structure ProcessLog where
  session_id : String
  events : List Event
  integrity : Option Integrity

/-- Model of `log.get("_integrity", {}).get("head_hash", "")`. -/
def headHashOf : Option Integrity → String
  | some it => it.head_hash
  | none => ""

/-! ## Hash chain operations -/

/-- Model of `compute_event_hash` (identical in both source files):
strip `_hash`, serialize the rest canonically, join with `"|"`, the
previous hash and the session id, and take the lowercase-hex SHA-256 of
the UTF-8 bytes. -/
def compute_event_hash (event : Event) (previous_hash session_id : String) : String :=
  let payload := stripHash event
  let payload_json := dumpsSorted payload
  let hash_input := payload_json ++ "|" ++ previous_hash ++ "|" ++ session_id
  sha256HexOfString hash_input

/-- Severity of a finding, i.e. which of the `ok` / `warn` / `fail`
message wrappers the source prints it with. -/
inductive Severity where
  | ok : Severity
  | warning : Severity
  | failure : Severity
deriving DecidableEq

/-- Findings of `verify_hash_chain`, carrying the data of the formatted
messages the source appends. -/
inductive Finding where
  | unsignedEvent (i : Nat) (ty : String)
  | hashMismatch (i : Nat) (ty expected stored : String)
  | intactEvent (i : Nat) (ty stored : String)
  | anchorMismatch (expected stored : String)
  | anchorIntact (stored : String)
  | noAnchor
deriving DecidableEq

/-- Severity wrapper used for each `verify_hash_chain` message. -/
def Finding.severity : Finding → Severity
  | .unsignedEvent _ _ => .warning
  | .hashMismatch _ _ _ _ => .failure
  | .intactEvent _ _ _ => .ok
  | .anchorMismatch _ _ => .failure
  | .anchorIntact _ => .ok
  | .noAnchor => .warning

/-- The event index a finding refers to, if any. -/
def Finding.eventIdx : Finding → Option Nat
  | .unsignedEvent i _ => some i
  | .hashMismatch i _ _ _ => some i
  | .intactEvent i _ _ => some i
  | _ => none

/-- The per-event loop of `verify_hash_chain`: walk the events from index
`i` with running hash `prev`, returning the conjunction of the per-event
verdicts, the findings in emission order, and the final running hash.
`prev` advances to `stored or expected`. -/
def verifyEventsGo (sid : String) (verbose : Bool) :
    List Event → Nat → String → Bool × List Finding × String
  | [], _, prev => (true, [], prev)
  | e :: rest, i, prev =>
      let stored := e.hashField
      let expected := compute_event_hash e prev sid
      let step : Bool × List Finding :=
        if stored = "" then (true, [.unsignedEvent i e.typeField])
        else if stored ≠ expected then (false, [.hashMismatch i e.typeField expected stored])
        else if verbose then (true, [.intactEvent i e.typeField stored])
        else (true, [])
      let prev' := if stored = "" then expected else stored
      let r := verifyEventsGo sid verbose rest (i + 1) prev'
      (step.1 && r.1, step.2 ++ r.2.1, r.2.2)

/-- Model of `verify_hash_chain(log, verbose)`: per-event walk, then the
`_integrity.head_hash` check. -/
def verify_hash_chain (log : ProcessLog) (verbose : Bool) : Bool × List Finding :=
  let r := verifyEventsGo log.session_id verbose log.events 0 ""
  let head_hash := headHashOf log.integrity
  if head_hash ≠ "" then
    if head_hash ≠ r.2.2 then (false, r.2.1 ++ [.anchorMismatch r.2.2 head_hash])
    else if verbose then (r.1, r.2.1 ++ [.anchorIntact head_hash])
    else (r.1, r.2.1)
  else (r.1, r.2.1 ++ [.noAnchor])

/-- The per-event loop of `add_hash_chain`: hash each event (its stale
`_hash`, if any, is excluded by `compute_event_hash`), store the hash on
the event, and advance the running hash. Returns the rewritten events and
the final running hash. -/
def addChainGo (sid : String) : List Event → String → List Event × String
  | [], prev => ([], prev)
  | e :: rest, prev =>
      let h := compute_event_hash e prev sid
      let r := addChainGo sid rest h
      (setField e "_hash" (.str h) :: r.1, r.2)

/-- Model of `add_hash_chain(log)`: rewrite every event's `_hash` and set
the `_integrity` trailer. -/
def add_hash_chain (log : ProcessLog) : ProcessLog :=
  let r := addChainGo log.session_id log.events ""
  { session_id := log.session_id
    events := r.1
    integrity := some
      { algorithm := "SHA-256-CHAIN"
        chain_length := r.1.length
        head_hash := r.2
        session_id := log.session_id
        note := "Per-event chained hash. Verify using spec §5.2." } }

/-- Detail result of `verify_process_log`, carrying the data of the
formatted message it returns. -/
inductive PLDetail where
  | mismatchAt (i : Nat) (ty expected stored : String)
  | headMismatch (expected stored : String)
  | intact (n : Nat)
deriving DecidableEq

/-- The per-event loop of `verify_process_log`: stops at the first stored
hash that disagrees (`some` detail), else returns the final running hash. -/
def vplGo (sid : String) : List Event → Nat → String → Option PLDetail × String
  | [], _, prev => (none, prev)
  | e :: rest, i, prev =>
      let stored := e.hashField
      let expected := compute_event_hash e prev sid
      if stored ≠ "" ∧ stored ≠ expected then
        (some (.mismatchAt i e.typeField expected stored), prev)
      else vplGo sid rest (i + 1) (if stored = "" then expected else stored)

/-- Model of `verify_process_log(log)` from `verify_process_log.py`:
early-return verifier over the same chain. -/
def verify_process_log (log : ProcessLog) : Bool × PLDetail :=
  match vplGo log.session_id log.events 0 "" with
  | (some d, _) => (false, d)
  | (none, prev) =>
      let head_hash := headHashOf log.integrity
      if head_hash ≠ "" ∧ head_hash ≠ prev then (false, .headMismatch prev head_hash)
      else (true, .intact log.events.length)

/-! ## Structural sanity check and aggregation (from `main`) -/

/-- Findings of the structural sanity block in `main`. -/
inductive SanityFinding where
  | noEvents
  | firstNotSessionStart
  | lastNotSessionEnd
  | notChronological
  | chronologicalOk
deriving DecidableEq

/-- Severity wrapper used for each sanity message in `main`. -/
def SanityFinding.severity : SanityFinding → Severity
  | .noEvents => .warning
  | .firstNotSessionStart => .warning
  | .lastNotSessionEnd => .warning
  | .notChronological => .failure
  | .chronologicalOk => .ok

/-- Model of the structural sanity block of `main`: boundary event types,
then chronological ordering of the `timestamp` strings (Python's
`timestamps != sorted(timestamps)`). Returns `sanity_ok` and the messages
in emission order. -/
def sanity_check (verbose : Bool) (events : List Event) : Bool × List SanityFinding :=
  match events with
  | [] => (true, [.noEvents])
  | e0 :: rest =>
      let firstBad := e0.typeField ≠ "session_start"
      let lastBad := ((e0 :: rest).getLastD []).typeField ≠ "session_end"
      let timestamps := (e0 :: rest).map Event.timestampField
      let chronoBad := timestamps ≠ List.insertionSort SLe timestamps
      (!(firstBad || lastBad || chronoBad),
        (if firstBad then [SanityFinding.firstNotSessionStart] else []) ++
        (if lastBad then [SanityFinding.lastNotSessionEnd] else []) ++
        (if chronoBad then [SanityFinding.notChronological]
         else if verbose then [SanityFinding.chronologicalOk] else []))

/-- Model of `file_ok = schema_ok and chain_ok and sanity_ok` in `main`.
Schema validation is delegated to the external `jsonschema` package, so
its verdict enters as a boolean. -/
def file_ok (schema_ok chain_ok sanity_ok : Bool) : Bool :=
  schema_ok && chain_ok && sanity_ok

/-- Model of `main`'s exit status over the per-file verdicts:
`0` iff every examined file passed. -/
def exit_code (file_results : List Bool) : Nat :=
  if file_results.all (fun b => b) then 0 else 1

/-! ## Replay state, for stating properties of the verifier -/

/-- The running hash after processing one event:
`prev_hash = stored or expected`. -/
def nextPrev (sid prev : String) (e : Event) : String :=
  if e.hashField = "" then compute_event_hash e prev sid else e.hashField

/-- The running hash before event `j` of the walk (`prev` before index 0). -/
def prevAt (sid : String) : List Event → String → Nat → String
  | _, prev, 0 => prev
  | [], prev, _ + 1 => prev
  | e :: rest, prev, j + 1 => prevAt sid rest (nextPrev sid prev e) j

/-- The expected hash of event `j` in the replay of `log`. -/
def expectedAt (log : ProcessLog) (j : Nat) : String :=
  compute_event_hash (log.events.getD j []) (prevAt log.session_id log.events "" j)
    log.session_id

/-- Event `j` of `log` is tampered: it stores a hash that differs from the
hash the replay expects there. -/
def tamperedAt (log : ProcessLog) (j : Nat) : Prop :=
  j < log.events.length ∧ (log.events.getD j []).hashField ≠ "" ∧
    (log.events.getD j []).hashField ≠ expectedAt log j

/-- The running hash after the whole walk. -/
def finalPrev (log : ProcessLog) : String :=
  prevAt log.session_id log.events "" log.events.length

/-- Replacement of event `i` of a log (used to state tampering claims). -/
def tamperAt (log : ProcessLog) (i : Nat) (e : Event) : ProcessLog :=
  { log with events := log.events.set i e }

/-! ## Concrete documents used by witnesses and counterexamples -/

/-- A log whose first event stores a hash that cannot match. -/
def wLogTampered : ProcessLog :=
  { session_id := "s"
    events := [[("type", .str "a"), ("_hash", .str "deadbeef")], [("type", .str "b")]]
    integrity := none }

/-- A log with one unsigned event and no anchor. -/
def wLogUnsigned : ProcessLog :=
  { session_id := "s"
    events := [[("type", .str "session_start"), ("timestamp", .str "1")]]
    integrity := none }

/-- A log whose anchor was replaced by an unrelated 64-hex-character
string while its event list would otherwise verify. -/
def wLogBadAnchor : ProcessLog :=
  { session_id := "s"
    events := [[("type", .str "x")]]
    integrity := some
      { algorithm := "SHA-256-CHAIN"
        chain_length := 1
        head_hash := "0000000000000000000000000000000000000000000000000000000000000000"
        session_id := "s"
        note := "" } }

/-- A three-event base log, to be chained and then tampered with. -/
def wLogBase : ProcessLog :=
  { session_id := "s"
    events := [[("type", .str "session_start"), ("timestamp", .str "1"), ("data", .str "a")],
               [("type", .str "paste"), ("timestamp", .str "2"), ("data", .str "b")],
               [("type", .str "session_end"), ("timestamp", .str "3"), ("data", .str "c")]]
    integrity := none }

/-- The chained three-event log. -/
def wLogChained : ProcessLog := add_hash_chain wLogBase

/-- The chained log with event 1's payload altered and all stored hashes
left stale. -/
def wLogTamperedMid : ProcessLog :=
  tamperAt wLogChained 1 (setField (wLogChained.events.getD 1 []) "data" (.str "EVIL"))

/-- The altered event 1 of the chained log: its `data` payload replaced,
its stale `_hash` kept. -/
def wTamperedEvent1 : Event :=
  setField ((add_hash_chain wLogBase).events.getD 1 []) "data" (.str "EVIL")

/-- Two events with out-of-order timestamps. -/
def wEventsOutOfOrder : List Event :=
  [[("type", .str "session_start"), ("timestamp", .str "2")],
   [("type", .str "session_end"), ("timestamp", .str "1")]]

/-- A one-event log violating both boundary markers but chronological. -/
def wLogBoundary : ProcessLog :=
  { session_id := "s"
    events := [[("type", .str "x"), ("timestamp", .str "1")]]
    integrity := none }

/-! ## Order lemmas for the string comparison and key sorting -/

example : sha256HexOfString "" =
    "e3b0c44298fc1c149afbf4c8996fb92427ae41e4649b934ca495991b7852b855" := by decide

example : sha256HexOfString "abc" =
    "ba7816bf8f01cfea414140de5dae2223b00361a396177a9cb410ff61f20015ad" := by decide

theorem char_toNat_inj {a b : Char} (h : a.toNat = b.toNat) : a = b := by
  have h2 := congrArg Char.ofNat h
  rwa [Char.ofNat_toNat, Char.ofNat_toNat] at h2

theorem charsLt_irrefl : ∀ l, charsLt l l = false
  | [] => rfl
  | a :: as => by simp [charsLt, charsLt_irrefl as]

theorem charsLt_trans : ∀ a b c : List Char,
    charsLt a b = true → charsLt b c = true → charsLt a c = true := by
  intro a
  induction a with
  | nil =>
    intro b c h1 h2
    cases b with
    | nil => exact absurd h1 (by simp [charsLt])
    | cons y ys => cases c with
      | nil => exact absurd h2 (by simp [charsLt])
      | cons z zs => simp [charsLt]
  | cons x xs ih =>
    intro b c h1 h2
    cases b with
    | nil => exact absurd h1 (by simp [charsLt])
    | cons y ys =>
      cases c with
      | nil => exact absurd h2 (by simp [charsLt])
      | cons z zs =>
        simp only [charsLt] at h1 h2 ⊢
        split_ifs at h1 h2 ⊢ <;> try rfl
        all_goals try omega
        all_goals exact ih ys zs h1 h2

theorem charsLt_conn : ∀ a b : List Char,
    charsLt a b = false → charsLt b a = false → a = b := by
  intro a
  induction a with
  | nil =>
    intro b h1 _
    cases b with
    | nil => rfl
    | cons y ys => exact absurd h1 (by simp [charsLt])
  | cons x xs ih =>
    intro b h1 h2
    cases b with
    | nil => exact absurd h2 (by simp [charsLt])
    | cons y ys =>
      simp only [charsLt] at h1 h2
      split_ifs at h1 h2 <;> try omega
      have hxy : x = y := char_toNat_inj (by omega)
      rw [hxy, ih ys h1 h2]

theorem charsLt_asymm {a b : List Char} (h : charsLt a b = true) : charsLt b a = false := by
  by_contra hne
  have hba : charsLt b a = true := by
    cases hb : charsLt b a with
    | false => exact absurd hb hne
    | true => rfl
  have := charsLt_trans a b a h hba
  rw [charsLt_irrefl] at this
  exact Bool.false_ne_true this

theorem SLe_total (a b : String) : SLe a b ∨ SLe b a := by
  unfold SLe strLe strLt
  cases h : charsLt b.data a.data with
  | false => left; simp [h]
  | true => right; simp [charsLt_asymm h]

theorem SLe_trans {a b c : String} (h1 : SLe a b) (h2 : SLe b c) : SLe a c := by
  unfold SLe strLe strLt at *
  simp only [Bool.not_eq_true', Bool.not_eq_false'] at *
  by_contra hca
  have hca' : charsLt c.data a.data = true := by
    cases h : charsLt c.data a.data with
    | false => exact absurd h hca
    | true => rfl
  cases hbc : charsLt b.data c.data with
  | true =>
    have hba := charsLt_trans _ _ _ hbc hca'
    rw [h1] at hba
    exact Bool.false_ne_true hba
  | false =>
    have hbceq : b.data = c.data := charsLt_conn _ _ hbc h2
    rw [← hbceq] at hca'
    rw [h1] at hca'
    exact Bool.false_ne_true hca'

theorem SLe_antisymm {a b : String} (h1 : SLe a b) (h2 : SLe b a) : a = b := by
  unfold SLe strLe strLt at *
  simp only [Bool.not_eq_true', Bool.not_eq_false'] at *
  exact String.ext (charsLt_conn _ _ h2 h1)

instance : IsTotal String SLe := ⟨SLe_total⟩

instance : IsTrans String SLe := ⟨fun _ _ _ => SLe_trans⟩

instance : IsAntisymm String SLe := ⟨fun _ _ => SLe_antisymm⟩

/-- When two strings differ, non-strict order is strict order. -/
theorem strLt_of_SLe_ne {a b : String} (h : SLe a b) (hne : a ≠ b) : strLt a b = true := by
  unfold SLe strLe at h
  simp only [Bool.not_eq_true'] at h
  cases hab : strLt a b with
  | true => rfl
  | false =>
    unfold strLt at hab h
    exact absurd (String.ext (charsLt_conn _ _ hab h)) hne

instance : IsTotal (String × String) keyLe := ⟨fun a b => SLe_total a.1 b.1⟩

instance : IsTrans (String × String) keyLe := ⟨fun _ _ _ => SLe_trans⟩

instance : IsAntisymm (String × String) keyLt where
  antisymm a b h1 h2 := by
    unfold keyLt strLt at h1 h2
    have := charsLt_asymm h1
    rw [this] at h2
    exact absurd h2 Bool.false_ne_true

theorem encodeFields_ofFields (l : List (String × Jval)) :
    encodeFields (ofFields l) = l.map (fun p => (p.1, encodeJval p.2)) := by
  induction l with
  | nil => rfl
  | cons p rest ih => cases p; simp [ofFields, encodeFields, ih]

example : dumpsSorted [("b", .num 1), ("a", .str "x")] = "\x7b\"a\":\"x\",\"b\":1\x7d" := by
  decide

/-- Sorting encoded fields is invariant under permutation of the field
list when the keys are distinct. -/
theorem insertionSort_keyLe_perm_eq {fs fs' : List (String × String)}
    (h : fs.Perm fs') (hnd : (fs.map Prod.fst).Nodup) :
    List.insertionSort keyLe fs = List.insertionSort keyLe fs' := by
  have sortedStrict : ∀ (l : List (String × String)), (l.map Prod.fst).Nodup →
      List.Sorted keyLt (List.insertionSort keyLe l) := by
    intro l hl
    have hs := List.sorted_insertionSort keyLe l
    have hnd' : ((List.insertionSort keyLe l).map Prod.fst).Nodup :=
      (((List.perm_insertionSort keyLe l).map Prod.fst).nodup_iff).mpr hl
    have hne := (List.pairwise_map).mp hnd'
    exact (hs.and hne).imp (fun hab => strLt_of_SLe_ne hab.1 hab.2)
  have hnd2 : (fs'.map Prod.fst).Nodup := ((h.map Prod.fst).nodup_iff).mp hnd
  exact List.eq_of_perm_of_sorted
    ((List.perm_insertionSort keyLe fs).trans
      (h.trans (List.perm_insertionSort keyLe fs').symm))
    (sortedStrict fs hnd) (sortedStrict fs' hnd2)

/-- Canonical encoding is independent of in-memory field order when the
keys are distinct. -/
theorem dumpsSorted_perm {fs fs' : List (String × Jval)}
    (h : fs.Perm fs') (hnd : (fs.map Prod.fst).Nodup) :
    dumpsSorted fs = dumpsSorted fs' := by
  unfold dumpsSorted
  show "\x7b" ++
      commaJoin ((List.insertionSort keyLe (encodeFields (ofFields fs))).map renderField) ++
      "\x7d" = "\x7b" ++
      commaJoin ((List.insertionSort keyLe (encodeFields (ofFields fs'))).map renderField) ++
      "\x7d"
  rw [encodeFields_ofFields, encodeFields_ofFields]
  have hperm : (fs.map (fun p => (p.1, encodeJval p.2))).Perm
      (fs'.map (fun p => (p.1, encodeJval p.2))) := h.map _
  have hnd' : ((fs.map (fun p => (p.1, encodeJval p.2))).map Prod.fst).Nodup := by
    rw [List.map_map]
    exact hnd
  rw [insertionSort_keyLe_perm_eq hperm hnd']

/-! ## Helper lemmas about the digest shape -/

theorem beBytes_length (k n : Nat) : (beBytes k n).length = k := by
  induction k generalizing n with
  | zero => rfl
  | succ k ih => simp [beBytes, ih]

theorem beBytes_lt (k n : Nat) : ∀ b ∈ beBytes k n, b < 256 := by
  induction k generalizing n with
  | zero => intro b hb; simp [beBytes] at hb
  | succ k ih =>
    intro b hb
    simp only [beBytes, List.mem_append, List.mem_singleton] at hb
    rcases hb with hb | hb
    · exact ih _ b hb
    · omega

theorem compressStep_length (s : List Nat) (p : Nat × Nat) :
    (compressStep s p).length = s.length := by
  unfold compressStep
  split <;> simp_all

theorem foldl_compressStep_length (l : List (Nat × Nat)) (s : List Nat) :
    (l.foldl compressStep s).length = s.length := by
  induction l generalizing s with
  | nil => rfl
  | cons p rest ih => rw [List.foldl_cons, ih, compressStep_length]

theorem compressBlock_length (hv block : List Nat) :
    (compressBlock hv block).length = hv.length := by
  unfold compressBlock
  rw [List.length_map, List.length_zip, foldl_compressStep_length]
  omega

theorem foldl_compressBlock_length (bs : List (List Nat)) (hv : List Nat) :
    (bs.foldl compressBlock hv).length = hv.length := by
  induction bs generalizing hv with
  | nil => rfl
  | cons b rest ih => rw [List.foldl_cons, ih, compressBlock_length]

theorem flatten_beBytes4_length (hv : List Nat) :
    ((hv.map (beBytes 4)).flatten).length = 4 * hv.length := by
  induction hv with
  | nil => rfl
  | cons x rest ih =>
    simp only [List.map_cons, List.flatten_cons, List.length_append, beBytes_length, ih,
      List.length_cons]
    omega

theorem sha256Bytes_length (msg : List Nat) : (sha256Bytes msg).length = 32 := by
  unfold sha256Bytes
  rw [flatten_beBytes4_length, foldl_compressBlock_length]
  rfl

theorem bytesToHex_length (bs : List Nat) : (bytesToHex bs).length = 2 * bs.length := by
  induction bs with
  | nil => rfl
  | cons b rest ih =>
    show (byteToHex b ++ bytesToHex rest).length = 2 * (rest.length + 1)
    rw [String.length_append, ih]
    show 2 + 2 * rest.length = 2 * (rest.length + 1)
    omega

/-- Every digest the model produces is 64 characters long. -/
theorem sha256HexOfString_length (s : String) : (sha256HexOfString s).length = 64 := by
  unfold sha256HexOfString
  rw [bytesToHex_length, sha256Bytes_length]

theorem sha256HexOfString_ne_empty (s : String) : sha256HexOfString s ≠ "" := by
  intro h
  have := sha256HexOfString_length s
  rw [h] at this
  simp [String.length] at this

theorem compute_event_hash_length (e : Event) (p sid : String) :
    (compute_event_hash e p sid).length = 64 :=
  sha256HexOfString_length _

theorem compute_event_hash_ne_empty (e : Event) (p sid : String) :
    compute_event_hash e p sid ≠ "" :=
  sha256HexOfString_ne_empty _

theorem bytesToHex_chars (bs : List Nat) (hb : ∀ b ∈ bs, b < 256) :
    ∀ c ∈ (bytesToHex bs).data, c ∈ ("0123456789abcdef" : String).data := by
  have hdig : ∀ n < 16, hexDigit n ∈ ("0123456789abcdef" : String).data := by decide
  induction bs with
  | nil => intro c hc; simp [bytesToHex] at hc
  | cons b rest ih =>
    intro c hc
    have hb1 : b < 256 := hb b (List.mem_cons_self b rest)
    show c ∈ ("0123456789abcdef" : String).data
    rw [show bytesToHex (b :: rest) = byteToHex b ++ bytesToHex rest from rfl,
      String.data_append] at hc
    rcases List.mem_append.mp hc with hc | hc
    · unfold byteToHex at hc
      simp only [String.mk] at hc
      rcases hc with hc
      simp only [List.mem_cons, List.mem_singleton, List.not_mem_nil, or_false] at hc
      rcases hc with hc | hc
      · rw [hc]; exact hdig _ (by omega)
      · rw [hc]; exact hdig _ (Nat.mod_lt _ (by omega))
    · exact ih (fun x hx => hb x (List.mem_cons_of_mem b hx)) c hc

theorem sha256Bytes_bytes_lt (msg : List Nat) : ∀ b ∈ sha256Bytes msg, b < 256 := by
  intro b hb
  unfold sha256Bytes at hb
  rw [List.mem_flatten] at hb
  rcases hb with ⟨l, hl, hbl⟩
  rw [List.mem_map] at hl
  rcases hl with ⟨w, _, hw⟩
  rw [← hw] at hbl
  exact beBytes_lt 4 w b hbl

/-- Every digest the model produces is built only of lowercase hex digits. -/
theorem sha256HexOfString_chars (s : String) :
    ∀ c ∈ (sha256HexOfString s).data, c ∈ ("0123456789abcdef" : String).data :=
  bytesToHex_chars _ (sha256Bytes_bytes_lt _)

/-! ## Helper lemmas about events and the chain -/

theorem lookup_setField (e : Event) (k : String) (v : Jval) :
    (setField e k v).lookup k = some v := by
  induction e with
  | nil => simp [setField, List.lookup]
  | cons p rest ih =>
    rcases p with ⟨k', v'⟩
    by_cases h : k' = k
    · simp [setField, h, List.lookup]
    · have hne : (k == k') = false := beq_eq_false_iff_ne.mpr (fun he => h he.symm)
      simp [setField, h, List.lookup, hne, ih]

theorem hashField_setField (e : Event) (h : String) :
    (setField e "_hash" (.str h)).hashField = h := by
  unfold Event.hashField getStrField
  rw [lookup_setField]

theorem stripHash_setField (e : Event) (v : Jval) :
    stripHash (setField e "_hash" v) = stripHash e := by
  induction e with
  | nil => simp [setField, stripHash]
  | cons p rest ih =>
    rcases p with ⟨k', v'⟩
    by_cases h : k' = "_hash"
    · simp [setField, stripHash, h]
    · have ih' := ih
      simp only [stripHash, ne_eq, decide_not] at ih'
      simp [setField, stripHash, h, ih']

theorem compute_event_hash_setField (e : Event) (v : Jval) (p sid : String) :
    compute_event_hash (setField e "_hash" v) p sid = compute_event_hash e p sid := by
  unfold compute_event_hash
  rw [stripHash_setField]

theorem setField_setField (e : Event) (k : String) (v w : Jval) :
    setField (setField e k v) k w = setField e k w := by
  induction e with
  | nil => simp [setField]
  | cons p rest ih =>
    rcases p with ⟨k', v'⟩
    by_cases h : k' = k
    · simp [setField, h]
    · simp [setField, h, ih]

theorem addChainGo_length (sid : String) (es : List Event) (prev : String) :
    (addChainGo sid es prev).1.length = es.length := by
  induction es generalizing prev with
  | nil => rfl
  | cons e rest ih => simp [addChainGo, ih]

/-- After `add_hash_chain`, every event verifies intact and the final
running hash of the verifier is the head hash the chain produced. -/
theorem verifyEventsGo_addChainGo (sid : String) (vb : Bool) :
    ∀ (es : List Event) (i : Nat) (prev : String),
      (verifyEventsGo sid vb (addChainGo sid es prev).1 i prev).1 = true ∧
      (verifyEventsGo sid vb (addChainGo sid es prev).1 i prev).2.2 =
        (addChainGo sid es prev).2 := by
  intro es
  induction es with
  | nil => intro i prev; exact ⟨rfl, rfl⟩
  | cons e rest ih =>
    intro i prev
    simp only [addChainGo, verifyEventsGo]
    rw [hashField_setField, compute_event_hash_setField]
    have hr := ih (i + 1) (compute_event_hash e prev sid)
    by_cases hh : compute_event_hash e prev sid = ""
    · refine ⟨?_, ?_⟩ <;> simp only [if_pos hh, ite_self] <;> simp [hr.1, hr.2]
    · refine ⟨?_, ?_⟩ <;> simp only [if_neg hh, ite_self] <;>
        (cases vb <;> simp [hh, hr.1, hr.2])

/-- The chain verifier accepts the output of the chain writer: the trailer
written by `add_hash_chain` matches the final running hash of the verifier
and every event verifies intact. -/
theorem verify_add_aux (log : ProcessLog) (verbose : Bool) :
    (verify_hash_chain (add_hash_chain log) verbose).1 = true := by
  unfold verify_hash_chain add_hash_chain
  have h := verifyEventsGo_addChainGo log.session_id verbose log.events 0 ""
  simp only [headHashOf]
  rw [h.2]
  by_cases hh : (addChainGo log.session_id log.events "").2 = ""
  · simp [hh, h.1]
  · simp only [ne_eq, hh, not_false_eq_true, reduceIte, not_true_eq_false]
    cases verbose <;> simp [h.1]

/-- Rewriting an already rewritten chain reproduces it exactly: the stale
`_hash` is excluded from the encoding, so each event hashes to the same
value, and overwriting `_hash` with the value it already has is the
identity. -/
theorem addChainGo_idem (sid : String) :
    ∀ (es : List Event) (prev : String),
      addChainGo sid (addChainGo sid es prev).1 prev = addChainGo sid es prev := by
  intro es
  induction es with
  | nil => intro prev; rfl
  | cons e rest ih =>
    intro prev
    simp only [addChainGo]
    rw [compute_event_hash_setField, setField_setField, ih]

/-- The early-return walk of `verify_process_log` and the full walk of
`verify_hash_chain` agree: the former returns no mismatch exactly when the
latter's per-event conjunction is true, and then their final running
hashes coincide. -/
theorem vplGo_verifyEventsGo (sid : String) (vb : Bool) :
    ∀ (es : List Event) (i : Nat) (prev : String),
      ((vplGo sid es i prev).1 = none →
        (verifyEventsGo sid vb es i prev).1 = true ∧
        (verifyEventsGo sid vb es i prev).2.2 = (vplGo sid es i prev).2) ∧
      ((vplGo sid es i prev).1 ≠ none → (verifyEventsGo sid vb es i prev).1 = false) := by
  intro es
  induction es with
  | nil =>
    intro i prev
    exact ⟨fun _ => ⟨rfl, rfl⟩, fun h => absurd rfl h⟩
  | cons e rest ih =>
    intro i prev
    simp only [vplGo, verifyEventsGo]
    by_cases hm : e.hashField ≠ "" ∧ e.hashField ≠ compute_event_hash e prev sid
    · refine ⟨fun hnone => ?_, fun _ => ?_⟩
      · rw [if_pos hm] at hnone
        exact absurd hnone (by simp)
      · have h1 : ¬ e.hashField = "" := hm.1
        have h2 : ¬ e.hashField = compute_event_hash e prev sid := hm.2
        simp [h1, h2]
    · have hr := ih (i + 1) (if e.hashField = "" then compute_event_hash e prev sid
        else e.hashField)
      rw [if_neg hm]
      by_cases h1 : e.hashField = ""
      · refine ⟨fun hnone => ?_, fun hsome => ?_⟩
        · have h3 := hr.1 hnone
          simp [h1] at h3
          simp [h1, h3.1, h3.2]
        · have h3 := hr.2 hsome
          simp [h1] at h3
          simp [h1, h3]
      · have h2 : e.hashField = compute_event_hash e prev sid := by
          by_contra h2
          exact hm ⟨h1, h2⟩
        refine ⟨fun hnone => ?_, fun hsome => ?_⟩
        · have h3 := hr.1 hnone
          simp [h1] at h3
          cases vb <;> simp [h1, ← h2, h3.1, h3.2]
        · have h3 := hr.2 hsome
          simp [h1] at h3
          cases vb <;> simp [h1, ← h2, h3]

theorem stripHash_keys_nodup {e : Event} (h : (e.map Prod.fst).Nodup) :
    ((stripHash e).map Prod.fst).Nodup :=
  h.sublist ((List.filter_sublist e).map Prod.fst)

/-- Hashing is independent of in-memory field order: permuting the fields
of an event (with distinct keys) leaves `compute_event_hash` unchanged,
because the canonical encoding sorts the keys. -/
theorem compute_event_hash_perm {e e' : Event} (prev sid : String)
    (hperm : e.Perm e') (hnd : (e.map Prod.fst).Nodup) :
    compute_event_hash e prev sid = compute_event_hash e' prev sid := by
  show sha256HexOfString (dumpsSorted (stripHash e) ++ "|" ++ prev ++ "|" ++ sid) =
    sha256HexOfString (dumpsSorted (stripHash e') ++ "|" ++ prev ++ "|" ++ sid)
  have hsp : (stripHash e).Perm (stripHash e') := hperm.filter _
  rw [dumpsSorted_perm hsp (stripHash_keys_nodup hnd)]

/-! ## Replay lemmas: the verifier walk against the replay state -/

theorem verifyEventsGo_finalPrev (sid : String) (vb : Bool) :
    ∀ (es : List Event) (i : Nat) (prev : String),
      (verifyEventsGo sid vb es i prev).2.2 = prevAt sid es prev es.length := by
  intro es
  induction es with
  | nil => intro i prev; rfl
  | cons e rest ih =>
    intro i prev
    simp only [verifyEventsGo, List.length_cons, prevAt]
    exact ih (i + 1) (nextPrev sid prev e)

theorem prevAt_succ (sid : String) :
    ∀ (es : List Event) (prev : String) (j : Nat), j < es.length →
      prevAt sid es prev (j + 1) =
        nextPrev sid (prevAt sid es prev j) (es.getD j []) := by
  intro es
  induction es with
  | nil => intro prev j hj; simp at hj
  | cons e rest ih =>
    intro prev j hj
    cases j with
    | zero => simp [prevAt]
    | succ j =>
      simp only [prevAt, List.getD_cons_succ]
      exact ih (nextPrev sid prev e) j (by simpa using hj)

/-- Completeness of the per-event walk: every tampered position yields its
mismatch finding — the walk never stops at the first failure. -/
theorem verifyEventsGo_mem_mismatch (sid : String) (vb : Bool) :
    ∀ (es : List Event) (i : Nat) (prev : String) (j : Nat),
      j < es.length →
      (es.getD j []).hashField ≠ "" →
      (es.getD j []).hashField ≠
        compute_event_hash (es.getD j []) (prevAt sid es prev j) sid →
      Finding.hashMismatch (i + j) (es.getD j []).typeField
          (compute_event_hash (es.getD j []) (prevAt sid es prev j) sid)
          (es.getD j []).hashField
        ∈ (verifyEventsGo sid vb es i prev).2.1 := by
  intro es
  induction es with
  | nil => intro i prev j hj; simp at hj
  | cons e rest ih =>
    intro i prev j hj h1 h2
    cases j with
    | zero =>
      simp only [List.getD_cons_zero, prevAt] at h1 h2 ⊢
      simp only [verifyEventsGo, if_neg h1, if_pos h2, ne_eq, h2, not_false_eq_true,
        reduceIte, Nat.add_zero]
      simp [List.mem_append]
    | succ j =>
      simp only [List.getD_cons_succ, prevAt] at h1 h2 ⊢
      have := ih (i + 1) (nextPrev sid prev e) j (by simpa using hj) h1 h2
      simp only [verifyEventsGo]
      rw [List.mem_append]
      right
      rw [show i + (j + 1) = (i + 1) + j by omega]
      exact this

/-- The aggregate per-event verdict is true exactly when no position is
tampered relative to the replay state. -/
theorem verifyEventsGo_true_iff (sid : String) (vb : Bool) :
    ∀ (es : List Event) (i : Nat) (prev : String),
      (verifyEventsGo sid vb es i prev).1 = true ↔
      ∀ j, j < es.length → ¬((es.getD j []).hashField ≠ "" ∧
        (es.getD j []).hashField ≠
          compute_event_hash (es.getD j []) (prevAt sid es prev j) sid) := by
  intro es
  induction es with
  | nil =>
    intro i prev
    constructor
    · intro _ j hj; simp at hj
    · intro _; rfl
  | cons e rest ih =>
    intro i prev
    have hcons : (verifyEventsGo sid vb (e :: rest) i prev).1 = true ↔
        (¬(e.hashField ≠ "" ∧ e.hashField ≠ compute_event_hash e prev sid) ∧
         (verifyEventsGo sid vb rest (i + 1) (nextPrev sid prev e)).1 = true) := by
      simp only [verifyEventsGo, nextPrev]
      by_cases h1 : e.hashField = ""
      · simp [h1]
      · by_cases h2 : e.hashField = compute_event_hash e prev sid
        · cases vb <;> simp [h1, ← h2]
        · simp [h1, h2]
    rw [hcons, ih (i + 1) (nextPrev sid prev e)]
    constructor
    · rintro ⟨hs, hrest⟩ j hj
      cases j with
      | zero => simpa [prevAt] using hs
      | succ j => simpa [prevAt] using hrest j (by simpa using hj)
    · intro hall
      refine ⟨by simpa [prevAt] using hall 0 (by simp), fun j hj => ?_⟩
      simpa [prevAt] using hall (j + 1) (by simpa using hj)

/-- The walk emits only per-event findings; in particular no anchor
finding. -/
theorem verifyEventsGo_eventIdx (sid : String) (vb : Bool) :
    ∀ (es : List Event) (i : Nat) (prev : String),
      ∀ f ∈ (verifyEventsGo sid vb es i prev).2.1, ∃ k, f.eventIdx = some k := by
  intro es
  induction es with
  | nil => intro i prev f hf; simp [verifyEventsGo] at hf
  | cons e rest ih =>
    intro i prev f hf
    simp only [verifyEventsGo] at hf
    rw [List.mem_append] at hf
    rcases hf with hf | hf
    · split_ifs at hf <;>
        first
          | (simp only [List.mem_singleton] at hf; rw [hf]; exact ⟨i, rfl⟩)
          | exact absurd hf (List.not_mem_nil f)
    · exact ih (i + 1) _ f hf

/-- With every event unsigned, the walk verdict is true and each finding
is an unsigned warning. -/
theorem verifyEventsGo_unsigned (sid : String) (vb : Bool) :
    ∀ (es : List Event) (i : Nat) (prev : String),
      (∀ e ∈ es, e.hashField = "") →
      (verifyEventsGo sid vb es i prev).1 = true ∧
      ∀ f ∈ (verifyEventsGo sid vb es i prev).2.1, f.severity = Severity.warning := by
  intro es
  induction es with
  | nil => intro i prev _; exact ⟨rfl, by intro f hf; simp [verifyEventsGo] at hf⟩
  | cons e rest ih =>
    intro i prev hall
    have h0 : e.hashField = "" := hall e (List.mem_cons_self e rest)
    have hr := ih (i + 1) (nextPrev sid prev e)
      (fun x hx => hall x (List.mem_cons_of_mem e hx))
    rw [show nextPrev sid prev e = compute_event_hash e prev sid by simp [nextPrev, h0]] at hr
    constructor
    · simp [verifyEventsGo, h0, hr.1]
    · intro f hf
      simp only [verifyEventsGo, if_pos h0] at hf
      rw [List.mem_append] at hf
      rcases hf with hf | hf
      · simp only [List.mem_singleton] at hf
        rw [hf]; rfl
      · refine hr.2 f ?_
        simpa [nextPrev, h0] using hf

/-- Findings of the walk survive the trailer step of `verify_hash_chain`. -/
theorem verify_hash_chain_mem_of_go (log : ProcessLog) (vb : Bool) :
    ∀ f ∈ (verifyEventsGo log.session_id vb log.events 0 "").2.1,
      f ∈ (verify_hash_chain log vb).2 := by
  intro f hf
  unfold verify_hash_chain
  by_cases hh : headHashOf log.integrity = ""
  · simp only [ne_eq, hh, not_true_eq_false, reduceIte]
    exact List.mem_append_left _ hf
  · by_cases hm : headHashOf log.integrity =
      (verifyEventsGo log.session_id vb log.events 0 "").2.2
    · have hc : ¬ (headHashOf log.integrity ≠
          (verifyEventsGo log.session_id vb log.events 0 "").2.2) := by simp [hm]
      cases vb <;> simp only [ne_eq, hh, not_false_eq_true, reduceIte, hc,
        not_true_eq_false, Bool.false_eq_true] <;>
        first
          | exact hf
          | exact List.mem_append_left _ hf
    · simp only [ne_eq, hh, not_false_eq_true, reduceIte, hm]
      exact List.mem_append_left _ hf

/-- One intact step of the non-verbose walk: a stored hash that matches
expectation contributes nothing and the walk continues from it. -/
theorem verifyEventsGo_cons_intact (sid : String) (e : Event) (rest : List Event)
    (i : Nat) (prev : String) (h : e.hashField = compute_event_hash e prev sid)
    (hne : e.hashField ≠ "") :
    verifyEventsGo sid false (e :: rest) i prev =
      verifyEventsGo sid false rest (i + 1) e.hashField := by
  have hc : ¬ (e.hashField ≠ compute_event_hash e prev sid) := by simp [h]
  simp only [verifyEventsGo, if_neg hne, if_neg hc, Bool.false_eq_true, reduceIte]
  simp

/-- One mismatch step of the non-verbose walk: a stored hash that differs
from expectation contributes the mismatch finding, fails the aggregate,
and the walk continues from the stored value. -/
theorem verifyEventsGo_cons_mismatch (sid : String) (e : Event) (rest : List Event)
    (i : Nat) (prev : String) (hne : e.hashField ≠ "")
    (hm : e.hashField ≠ compute_event_hash e prev sid) :
    verifyEventsGo sid false (e :: rest) i prev =
      (false,
        Finding.hashMismatch i e.typeField (compute_event_hash e prev sid) e.hashField ::
          (verifyEventsGo sid false rest (i + 1) e.hashField).2.1,
        (verifyEventsGo sid false rest (i + 1) e.hashField).2.2) := by
  simp only [verifyEventsGo, if_neg hne, if_pos hm]
  simp

/-- Non-verbose trailer step when the anchor equals the (non-empty) final
running hash: the verdict and findings are those of the walk. -/
theorem verify_hash_chain_anchored (log : ProcessLog) (ok : Bool) (msgs : List Finding)
    (fp : String)
    (hgo : verifyEventsGo log.session_id false log.events 0 "" = (ok, msgs, fp))
    (hhead : headHashOf log.integrity = fp) (hne : fp ≠ "") :
    verify_hash_chain log false = (ok, msgs) := by
  unfold verify_hash_chain
  simp only [hgo, hhead]
  rw [if_pos hne]
  rw [if_neg (show ¬ (fp ≠ fp) by simp)]
  rfl

/-- The aggregate verdict of `verify_hash_chain`: false on an anchor
mismatch, else the verdict of the walk. -/
theorem verify_hash_chain_fst (log : ProcessLog) (vb : Bool) :
    (verify_hash_chain log vb).1 =
      (if headHashOf log.integrity ≠ "" ∧ headHashOf log.integrity ≠ finalPrev log
       then false else (verifyEventsGo log.session_id vb log.events 0 "").1) := by
  unfold verify_hash_chain
  have hfp : (verifyEventsGo log.session_id vb log.events 0 "").2.2 = finalPrev log :=
    verifyEventsGo_finalPrev log.session_id vb log.events 0 ""
  simp only [hfp]
  by_cases hcond : headHashOf log.integrity ≠ "" ∧ headHashOf log.integrity ≠ finalPrev log
  · rw [if_pos hcond.1, if_pos hcond.2, if_pos hcond]
  · rw [if_neg hcond]
    by_cases hh : headHashOf log.integrity = ""
    · have hne : ¬ (headHashOf log.integrity ≠ "") := by simp [hh]
      rw [if_neg hne]
    · have hm : headHashOf log.integrity = finalPrev log := by
        by_contra hm
        exact hcond ⟨hh, hm⟩
      have hc : ¬ (headHashOf log.integrity ≠ finalPrev log) := by simp [hm]
      rw [if_pos hh, if_neg hc]
      cases vb <;> rfl

/-! ## Claim theorems -/

/-- C1: for every event record, previous hash string and session id,
`compute_event_hash` returns the lowercase hexadecimal SHA-256 digest (64
hex characters) of the UTF-8 bytes of the canonical encoding of the event
with the `_hash` field removed, concatenated with `"|"`, the previous
hash, `"|"`, and the session id; the canonical encoding sorts keys
lexicographically with no extraneous whitespace, so any two events with
the same fields and values — regardless of in-memory field order — yield
the same hash; and the previous hash used for the first event of a chain
is the empty string. -/
theorem compute_event_hash_spec (e e' : Event) (prev sid : String)
    (hperm : e.Perm e') (hnd : (e.map Prod.fst).Nodup) :
    compute_event_hash e prev sid =
      sha256HexOfString (dumpsSorted (stripHash e) ++ "|" ++ prev ++ "|" ++ sid)
    ∧ compute_event_hash e prev sid = compute_event_hash e' prev sid
    ∧ (compute_event_hash e prev sid).length = 64
    ∧ (∀ c ∈ (compute_event_hash e prev sid).data, c ∈ ("0123456789abcdef" : String).data)
    ∧ (∀ (log : ProcessLog) (rest : List Event), log.events = e :: rest →
        ((add_hash_chain log).events.headD []).hashField =
          compute_event_hash e "" log.session_id) := by
  refine ⟨rfl, compute_event_hash_perm prev sid hperm hnd,
    compute_event_hash_length e prev sid, sha256HexOfString_chars _, ?_⟩
  intro log rest hev
  unfold add_hash_chain
  rw [hev]
  simp only [addChainGo, List.headD_cons]
  rw [hashField_setField]

/-- C1 witness: a concrete two-field event, its field-order permutation,
and the hash equality obtained from the theorem. -/
theorem compute_event_hash_spec_witness :
    ([("b", Jval.num 1), ("a", Jval.str "x")] : Event).Perm
        [("a", Jval.str "x"), ("b", Jval.num 1)] ∧
    (([("b", Jval.num 1), ("a", Jval.str "x")] : Event).map Prod.fst).Nodup ∧
    compute_event_hash [("b", Jval.num 1), ("a", Jval.str "x")] "p" "s" =
      compute_event_hash [("a", Jval.str "x"), ("b", Jval.num 1)] "p" "s" :=
  have hperm : ([("b", Jval.num 1), ("a", Jval.str "x")] : Event).Perm
      [("a", Jval.str "x"), ("b", Jval.num 1)] :=
    List.Perm.swap ("a", Jval.str "x") ("b", Jval.num 1) []
  ⟨hperm, by decide,
    (compute_event_hash_spec _ _ "p" "s" hperm (by decide)).2.1⟩

/-- C3: for every structurally valid log document the chain verifier is a
total function (it never raises) that completes the full replay: every
tampered position contributes its mismatch finding, an anchor mismatch
contributes its finding, and the aggregate boolean is returned with all of
them — not just the first failure encountered. The third conjunct shows
the aggregate verdict is exactly "no tampered event and no anchor
mismatch". -/
theorem verify_hash_chain_complete (log : ProcessLog) (vb : Bool) :
    (∀ j, tamperedAt log j →
      Finding.hashMismatch j (log.events.getD j []).typeField (expectedAt log j)
        (log.events.getD j []).hashField ∈ (verify_hash_chain log vb).2)
    ∧ (headHashOf log.integrity ≠ "" → headHashOf log.integrity ≠ finalPrev log →
        Finding.anchorMismatch (finalPrev log) (headHashOf log.integrity)
          ∈ (verify_hash_chain log vb).2)
    ∧ ((verify_hash_chain log vb).1 = true ↔
        (∀ j, ¬ tamperedAt log j) ∧
        (headHashOf log.integrity = "" ∨ headHashOf log.integrity = finalPrev log)) := by
  have hfp : (verifyEventsGo log.session_id vb log.events 0 "").2.2 = finalPrev log :=
    verifyEventsGo_finalPrev log.session_id vb log.events 0 ""
  refine ⟨?_, ?_, ?_⟩
  · rintro j ⟨hj, h1, h2⟩
    have hmem := verifyEventsGo_mem_mismatch log.session_id vb log.events 0 "" j hj h1 h2
    rw [Nat.zero_add] at hmem
    exact verify_hash_chain_mem_of_go log vb _ hmem
  · intro hh hm
    unfold verify_hash_chain
    simp only [hfp]
    rw [if_pos hh, if_pos hm]
    exact List.mem_append_right _ (List.mem_singleton.mpr rfl)
  · have hgo := verifyEventsGo_true_iff log.session_id vb log.events 0 ""
    have hbridge : (∀ j, j < log.events.length →
        ¬((log.events.getD j []).hashField ≠ "" ∧
          (log.events.getD j []).hashField ≠
            compute_event_hash (log.events.getD j [])
              (prevAt log.session_id log.events "" j) log.session_id)) ↔
        (∀ j, ¬ tamperedAt log j) := by
      constructor
      · rintro h j ⟨hj, h1, h2⟩
        exact h j hj ⟨h1, h2⟩
      · intro h j hj hc
        exact h j ⟨hj, hc.1, hc.2⟩
    rw [verify_hash_chain_fst]
    by_cases hcond : headHashOf log.integrity ≠ "" ∧ headHashOf log.integrity ≠ finalPrev log
    · rw [if_pos hcond]
      constructor
      · intro h
        exact absurd h (by simp)
      · rintro ⟨_, hor⟩
        rcases hor with h | h
        · exact absurd h hcond.1
        · exact absurd h hcond.2
    · rw [if_neg hcond]
      rw [hgo, hbridge]
      constructor
      · intro h
        refine ⟨h, ?_⟩
        by_cases hh : headHashOf log.integrity = ""
        · exact Or.inl hh
        · right
          by_contra hm
          exact hcond ⟨hh, hm⟩
      · rintro ⟨h, _⟩
        exact h

/-- C3 witness: a concrete tampered two-event log on which the theorem's
first conjunct yields the mismatch finding at index 0. -/
theorem verify_hash_chain_complete_witness :
    tamperedAt wLogTampered 0 ∧
    Finding.hashMismatch 0 (wLogTampered.events.getD 0 []).typeField
      (expectedAt wLogTampered 0) ((wLogTampered.events.getD 0 []).hashField)
      ∈ (verify_hash_chain wLogTampered false).2 :=
  have ht : tamperedAt wLogTampered 0 := ⟨by decide, by decide, by decide⟩
  ⟨ht, (verify_hash_chain_complete wLogTampered false).1 0 ht⟩

/-- C6: a log in which no event carries a `_hash` and with no `_integrity`
block verifies as intact with warnings only, and for each unsigned event
the running previous hash advances to that event's computed hash. -/
theorem unsigned_logs_intact (log : ProcessLog) (vb : Bool)
    (hus : ∀ e ∈ log.events, e.hashField = "") (hint : log.integrity = none) :
    (verify_hash_chain log vb).1 = true ∧
    (∀ f ∈ (verify_hash_chain log vb).2, f.severity = Severity.warning) ∧
    (∀ j, j < log.events.length →
      prevAt log.session_id log.events "" (j + 1) =
        compute_event_hash (log.events.getD j [])
          (prevAt log.session_id log.events "" j) log.session_id) := by
  have hgo := verifyEventsGo_unsigned log.session_id vb log.events 0 "" hus
  have hh : headHashOf log.integrity = "" := by rw [hint]; rfl
  refine ⟨?_, ?_, ?_⟩
  · unfold verify_hash_chain
    simp [hh, hgo.1]
  · intro f hf
    unfold verify_hash_chain at hf
    simp only [ne_eq, hh, not_true_eq_false, reduceIte] at hf
    rcases List.mem_append.mp hf with hf | hf
    · exact hgo.2 f hf
    · rw [List.mem_singleton.mp hf]; rfl
  · intro j hj
    rw [prevAt_succ log.session_id log.events "" j hj]
    have hmem : log.events.getD j [] ∈ log.events := by
      rw [List.getD_eq_getElem log.events [] hj]
      exact List.getElem_mem hj
    have hz : (log.events.getD j []).hashField = "" := hus _ hmem
    unfold nextPrev
    rw [if_pos hz]

/-- C6 witness: a concrete unsigned, unanchored log on which the theorem
yields the intact verdict. -/
theorem unsigned_logs_intact_witness :
    (∀ e ∈ wLogUnsigned.events, e.hashField = "") ∧
    wLogUnsigned.integrity = none ∧
    (verify_hash_chain wLogUnsigned false).1 = true :=
  ⟨by decide, rfl, (unsigned_logs_intact wLogUnsigned false (by decide) rfl).1⟩

/-- C7: when `_integrity.head_hash` is present and differs from the final
running hash of the walk, the verifier fails with an anchor-mismatch
finding — a failure distinct from the per-event findings (it names no
event index) — even if every per-event check passed; when `_integrity` is
absent, the verifier emits only the anchor warning and the anchor check
does not change the aggregate verdict. -/
theorem anchor_mismatch_check (log : ProcessLog) (vb : Bool) :
    (headHashOf log.integrity ≠ "" → headHashOf log.integrity ≠ finalPrev log →
      (verify_hash_chain log vb).1 = false ∧
      Finding.anchorMismatch (finalPrev log) (headHashOf log.integrity)
        ∈ (verify_hash_chain log vb).2 ∧
      (Finding.anchorMismatch (finalPrev log) (headHashOf log.integrity)).severity =
        Severity.failure ∧
      (Finding.anchorMismatch (finalPrev log) (headHashOf log.integrity)).eventIdx = none)
    ∧ (log.integrity = none →
      Finding.noAnchor ∈ (verify_hash_chain log vb).2 ∧
      Finding.noAnchor.severity = Severity.warning ∧
      (∀ ex st, Finding.anchorMismatch ex st ∉ (verify_hash_chain log vb).2) ∧
      (verify_hash_chain log vb).1 =
        (verifyEventsGo log.session_id vb log.events 0 "").1) := by
  have hfp : (verifyEventsGo log.session_id vb log.events 0 "").2.2 = finalPrev log :=
    verifyEventsGo_finalPrev log.session_id vb log.events 0 ""
  constructor
  · intro hh hm
    unfold verify_hash_chain
    simp only [hfp]
    rw [if_pos hh, if_pos hm]
    exact ⟨rfl, List.mem_append_right _ (List.mem_singleton.mpr rfl), rfl, rfl⟩
  · intro hint
    have hh : headHashOf log.integrity = "" := by rw [hint]; rfl
    have hne : ¬ (headHashOf log.integrity ≠ "") := by simp [hh]
    unfold verify_hash_chain
    simp only [hfp]
    rw [if_neg hne]
    refine ⟨List.mem_append_right _ (List.mem_singleton.mpr rfl), rfl, ?_, rfl⟩
    intro ex st hmem
    rcases List.mem_append.mp hmem with hmem | hmem
    · rcases verifyEventsGo_eventIdx log.session_id vb log.events 0 "" _ hmem with ⟨k, hk⟩
      simp [Finding.eventIdx] at hk
    · rw [List.mem_singleton] at hmem
      exact absurd hmem (by simp)

/-- C7 witness: a concrete log whose anchor was replaced by an unrelated
string while its only event is intact, on which the theorem yields the
anchor-mismatch failure. -/
theorem anchor_mismatch_check_witness :
    headHashOf wLogBadAnchor.integrity ≠ "" ∧
    headHashOf wLogBadAnchor.integrity ≠ finalPrev wLogBadAnchor ∧
    (verify_hash_chain wLogBadAnchor false).1 = false :=
  have h1 : headHashOf wLogBadAnchor.integrity ≠ "" := by decide
  have h2 : headHashOf wLogBadAnchor.integrity ≠ finalPrev wLogBadAnchor := by decide
  ⟨h1, h2, ((anchor_mismatch_check wLogBadAnchor false).1 h1 h2).1⟩

/-- C9: for every log with a non-empty event sequence whose timestamp
sequence is not non-decreasing, the structural sanity check reports the
chronological-order violation as a failure-severity finding, `sanity_ok`
is false, and the document is classified failed independently of the
schema and chain verdicts. -/
theorem timestamps_unordered_hard_failure (events : List Event) (vb : Bool)
    (hne : events ≠ [])
    (hns : ¬ (events.map Event.timestampField).Sorted SLe) :
    (sanity_check vb events).1 = false ∧
    SanityFinding.notChronological ∈ (sanity_check vb events).2 ∧
    SanityFinding.notChronological.severity = Severity.failure ∧
    (∀ schema_ok chain_ok : Bool,
      file_ok schema_ok chain_ok (sanity_check vb events).1 = false) := by
  rcases List.exists_cons_of_ne_nil hne with ⟨e0, rest, rfl⟩
  have hchrono : (e0 :: rest).map Event.timestampField ≠
      List.insertionSort SLe ((e0 :: rest).map Event.timestampField) := by
    intro heq
    have hs := List.sorted_insertionSort SLe ((e0 :: rest).map Event.timestampField)
    rw [← heq] at hs
    exact hns hs
  have hfst : (sanity_check vb (e0 :: rest)).1 = false := by
    simp only [sanity_check]
    rw [decide_eq_true hchrono]
    simp only [Bool.or_true, Bool.not_true]
  refine ⟨hfst, ?_, rfl, fun s c => by rw [hfst]; simp [file_ok]⟩
  simp only [sanity_check]
  refine List.mem_append_right _ ?_
  rw [if_pos hchrono]
  exact List.mem_singleton.mpr rfl

/-- C9 witness: two events with out-of-order timestamps, on which the
theorem yields the failed verdict. -/
theorem timestamps_unordered_hard_failure_witness :
    wEventsOutOfOrder ≠ [] ∧
    ¬ (wEventsOutOfOrder.map Event.timestampField).Sorted SLe ∧
    (sanity_check false wEventsOutOfOrder).1 = false :=
  have h1 : wEventsOutOfOrder ≠ [] := by simp [wEventsOutOfOrder]
  have h2 : ¬ (wEventsOutOfOrder.map Event.timestampField).Sorted SLe := by decide
  ⟨h1, h2, (timestamps_unordered_hard_failure wEventsOutOfOrder false h1 h2).1⟩

/-- C4 counterexample: the claim — a boundary-type violation produces only
warning-level findings and does not flip the aggregate verdict — is false
on the code. On this one-event log every sanity finding is warning-level,
the chain verdict is true, yet `sanity_ok` is false and the aggregate
`file_ok` (with the schema verdict true) is false. -/
theorem boundary_warning_counterexample :
    (∀ f ∈ (sanity_check false wLogBoundary.events).2, f.severity = Severity.warning) ∧
    (verify_hash_chain wLogBoundary false).1 = true ∧
    (sanity_check false wLogBoundary.events).1 = false ∧
    file_ok true (verify_hash_chain wLogBoundary false).1
      (sanity_check false wLogBoundary.events).1 = false := by
  decide

/-- C4 as amended: the boundary findings are printed with the warning
wrapper, but — contrary to the claim — a boundary-type violation does set
`sanity_ok` to false and flips the document's aggregate verdict to
failed whatever the schema and chain verdicts are. -/
theorem boundary_violation_flips_verdict (events : List Event) (vb : Bool)
    (hne : events ≠ [])
    (hb : (events.headD []).typeField ≠ "session_start" ∨
      (events.getLastD []).typeField ≠ "session_end") :
    ((events.headD []).typeField ≠ "session_start" →
      SanityFinding.firstNotSessionStart ∈ (sanity_check vb events).2) ∧
    ((events.getLastD []).typeField ≠ "session_end" →
      SanityFinding.lastNotSessionEnd ∈ (sanity_check vb events).2) ∧
    SanityFinding.firstNotSessionStart.severity = Severity.warning ∧
    SanityFinding.lastNotSessionEnd.severity = Severity.warning ∧
    (sanity_check vb events).1 = false ∧
    (∀ schema_ok chain_ok : Bool,
      file_ok schema_ok chain_ok (sanity_check vb events).1 = false) := by
  rcases List.exists_cons_of_ne_nil hne with ⟨e0, rest, rfl⟩
  simp only [List.headD_cons] at hb ⊢
  have hfst : (sanity_check vb (e0 :: rest)).1 = false := by
    simp only [sanity_check]
    rcases hb with h | h
    · rw [decide_eq_true h]
      simp only [Bool.true_or, Bool.not_true]
    · rw [decide_eq_true h]
      simp only [Bool.or_true, Bool.true_or, Bool.not_true]
  refine ⟨?_, ?_, rfl, rfl, hfst, fun s c => by rw [hfst]; simp [file_ok]⟩
  · intro h1
    simp only [sanity_check]
    refine List.mem_append_left _ (List.mem_append_left _ ?_)
    rw [if_pos h1]
    exact List.mem_singleton.mpr rfl
  · intro h2
    simp only [sanity_check]
    refine List.mem_append_left _ (List.mem_append_right _ ?_)
    rw [if_pos h2]
    exact List.mem_singleton.mpr rfl

/-- C4 amendment witness: a concrete one-event log violating both
boundary markers, on which the amended theorem yields the failed verdict. -/
theorem boundary_violation_flips_verdict_witness :
    wLogBoundary.events ≠ [] ∧
    (wLogBoundary.events.headD []).typeField ≠ "session_start" ∧
    (sanity_check false wLogBoundary.events).1 = false :=
  have h1 : wLogBoundary.events ≠ [] := by simp [wLogBoundary]
  have h2 : (wLogBoundary.events.headD []).typeField ≠ "session_start" := by decide
  ⟨h1, h2,
    (boundary_violation_flips_verdict wLogBoundary.events false h1 (Or.inl h2)).2.2.2.2.1⟩

/-- C8 counterexample: the claim — a properly chained three-event log
with event 1's payload altered and hashes left stale yields a chain
failure at event 1 *and a propagated note at event 2* — is false on the
code: on this concrete log the verifier reports the failure at event 1
and emits no finding at event 2 (nor at event 0), because the running
hash advances to the stored value after a mismatch; the document is
still classified failed with exit code 1. -/
theorem tampered_event1_no_propagated_note :
    (verify_hash_chain wLogTamperedMid false).1 = false ∧
    (∃ f ∈ (verify_hash_chain wLogTamperedMid false).2,
      f.eventIdx = some 1 ∧ f.severity = Severity.failure) ∧
    (¬ ∃ f ∈ (verify_hash_chain wLogTamperedMid false).2, f.eventIdx = some 2) ∧
    exit_code [file_ok true (verify_hash_chain wLogTamperedMid false).1
      (sanity_check false wLogTamperedMid.events).1] = 1 := by
  decide

/-- C8 as amended: for a properly chained three-event log in which event
1's payload is altered (so its expected hash changes) and all stored
hashes are left stale, the verifier reports exactly one finding — the
chain failure at event 1 — and no finding at event 2 (the running hash
advances to the stored value, so a single corruption is reported once,
not propagated); the document is classified failed and the run exits 1. -/
theorem tampered_event1_single_report (sid : String) (a b c b2 : Event)
    (hstale : b2.hashField =
      ((add_hash_chain ⟨sid, [a, b, c], none⟩).events.getD 1 []).hashField)
    (haltered : compute_event_hash b2 (compute_event_hash a "" sid) sid ≠ b2.hashField) :
    verify_hash_chain (tamperAt (add_hash_chain ⟨sid, [a, b, c], none⟩) 1 b2) false =
      (false, [Finding.hashMismatch 1 b2.typeField
        (compute_event_hash b2 (compute_event_hash a "" sid) sid) b2.hashField]) ∧
    (∀ schema_ok sanity_ok : Bool,
      file_ok schema_ok
        (verify_hash_chain (tamperAt (add_hash_chain ⟨sid, [a, b, c], none⟩) 1 b2) false).1
        sanity_ok = false ∧
      exit_code [file_ok schema_ok
        (verify_hash_chain (tamperAt (add_hash_chain ⟨sid, [a, b, c], none⟩) 1 b2) false).1
        sanity_ok] = 1) := by
  have hgd : (add_hash_chain ⟨sid, [a, b, c], none⟩).events.getD 1 [] =
      setField b "_hash"
        (.str (compute_event_hash b (compute_event_hash a "" sid) sid)) := rfl
  have hstale' : b2.hashField =
      compute_event_hash b (compute_event_hash a "" sid) sid := by
    rw [hstale, hgd, hashField_setField]
  have hF0 : (setField a "_hash" (Jval.str (compute_event_hash a "" sid))).hashField =
      compute_event_hash a "" sid := hashField_setField _ _
  have hne0 : (setField a "_hash" (Jval.str (compute_event_hash a "" sid))).hashField ≠ "" := by
    rw [hF0]
    exact compute_event_hash_ne_empty _ _ _
  have hint0 : (setField a "_hash" (Jval.str (compute_event_hash a "" sid))).hashField =
      compute_event_hash (setField a "_hash" (Jval.str (compute_event_hash a "" sid)))
        "" sid := by
    rw [hF0, compute_event_hash_setField]
  have hne1 : b2.hashField ≠ "" := by
    rw [hstale']
    exact compute_event_hash_ne_empty _ _ _
  have hF2 : (setField c "_hash" (Jval.str (compute_event_hash c
      (compute_event_hash b (compute_event_hash a "" sid) sid) sid))).hashField =
      compute_event_hash c (compute_event_hash b (compute_event_hash a "" sid) sid) sid :=
    hashField_setField _ _
  have hne2 : (setField c "_hash" (Jval.str (compute_event_hash c
      (compute_event_hash b (compute_event_hash a "" sid) sid) sid))).hashField ≠ "" := by
    rw [hF2]
    exact compute_event_hash_ne_empty _ _ _
  have hint2 : (setField c "_hash" (Jval.str (compute_event_hash c
      (compute_event_hash b (compute_event_hash a "" sid) sid) sid))).hashField =
      compute_event_hash (setField c "_hash" (Jval.str (compute_event_hash c
        (compute_event_hash b (compute_event_hash a "" sid) sid) sid)))
        b2.hashField sid := by
    rw [hF2, compute_event_hash_setField, hstale']
  have hgo : verifyEventsGo sid false
      [setField a "_hash" (Jval.str (compute_event_hash a "" sid)), b2,
        setField c "_hash" (Jval.str (compute_event_hash c
          (compute_event_hash b (compute_event_hash a "" sid) sid) sid))] 0 "" =
      (false, [Finding.hashMismatch 1 b2.typeField
        (compute_event_hash b2 (compute_event_hash a "" sid) sid) b2.hashField],
        compute_event_hash c (compute_event_hash b (compute_event_hash a "" sid) sid) sid) := by
    rw [verifyEventsGo_cons_intact sid _ _ 0 "" hint0 hne0]
    rw [hF0]
    rw [verifyEventsGo_cons_mismatch sid b2 _ 1 (compute_event_hash a "" sid) hne1
      (Ne.symm haltered)]
    rw [verifyEventsGo_cons_intact sid _ _ 2 b2.hashField hint2 hne2]
    simp [verifyEventsGo, hF2]
  have hT : tamperAt (add_hash_chain ⟨sid, [a, b, c], none⟩) 1 b2 =
      { session_id := sid
        events := [setField a "_hash" (.str (compute_event_hash a "" sid)), b2,
          setField c "_hash" (.str (compute_event_hash c
            (compute_event_hash b (compute_event_hash a "" sid) sid) sid))]
        integrity := some
          { algorithm := "SHA-256-CHAIN"
            chain_length := 3
            head_hash := compute_event_hash c
              (compute_event_hash b (compute_event_hash a "" sid) sid) sid
            session_id := sid
            note := "Per-event chained hash. Verify using spec §5.2." } } := by
    simp only [tamperAt, add_hash_chain, addChainGo]
    rfl
  have hsidT : (tamperAt (add_hash_chain ⟨sid, [a, b, c], none⟩) 1 b2).session_id = sid := by
    rw [hT]
  have hevT : (tamperAt (add_hash_chain ⟨sid, [a, b, c], none⟩) 1 b2).events =
      [setField a "_hash" (Jval.str (compute_event_hash a "" sid)), b2,
        setField c "_hash" (Jval.str (compute_event_hash c
          (compute_event_hash b (compute_event_hash a "" sid) sid) sid))] := by
    rw [hT]
  have hintT : (tamperAt (add_hash_chain ⟨sid, [a, b, c], none⟩) 1 b2).integrity =
      some
        { algorithm := "SHA-256-CHAIN"
          chain_length := 3
          head_hash := compute_event_hash c
            (compute_event_hash b (compute_event_hash a "" sid) sid) sid
          session_id := sid
          note := "Per-event chained hash. Verify using spec §5.2." } := by
    rw [hT]
  have hheadT : headHashOf (tamperAt (add_hash_chain ⟨sid, [a, b, c], none⟩) 1 b2).integrity =
      compute_event_hash c (compute_event_hash b (compute_event_hash a "" sid) sid) sid := by
    rw [hintT]
    simp only [headHashOf]
  have hgoT : verifyEventsGo
      (tamperAt (add_hash_chain ⟨sid, [a, b, c], none⟩) 1 b2).session_id false
      (tamperAt (add_hash_chain ⟨sid, [a, b, c], none⟩) 1 b2).events 0 "" =
      (false, [Finding.hashMismatch 1 b2.typeField
        (compute_event_hash b2 (compute_event_hash a "" sid) sid) b2.hashField],
        compute_event_hash c (compute_event_hash b (compute_event_hash a "" sid) sid) sid) := by
    rw [hsidT, hevT]
    exact hgo
  have hv : verify_hash_chain (tamperAt (add_hash_chain ⟨sid, [a, b, c], none⟩) 1 b2) false =
      (false, [Finding.hashMismatch 1 b2.typeField
        (compute_event_hash b2 (compute_event_hash a "" sid) sid) b2.hashField]) :=
    verify_hash_chain_anchored _ _ _ _ hgoT hheadT (compute_event_hash_ne_empty _ _ _)
  rw [hv]
  refine ⟨rfl, fun s x => ?_⟩
  constructor
  · simp [file_ok]
  · simp [file_ok, exit_code]

/-- C8 amendment witness: the concrete three-event chained log with event
1's `data` field altered, discharging the staleness and alteration
hypotheses, and the failed verdict obtained from the theorem. -/
theorem tampered_event1_single_report_witness :
    wTamperedEvent1.hashField =
      ((add_hash_chain ⟨"s", [wLogBase.events.getD 0 [], wLogBase.events.getD 1 [],
        wLogBase.events.getD 2 []], none⟩).events.getD 1 []).hashField ∧
    compute_event_hash wTamperedEvent1
      (compute_event_hash (wLogBase.events.getD 0 []) "" "s") "s" ≠
      wTamperedEvent1.hashField ∧
    verify_hash_chain (tamperAt (add_hash_chain ⟨"s", [wLogBase.events.getD 0 [],
        wLogBase.events.getD 1 [], wLogBase.events.getD 2 []], none⟩) 1 wTamperedEvent1)
      false =
      (false, [Finding.hashMismatch 1 wTamperedEvent1.typeField
        (compute_event_hash wTamperedEvent1
          (compute_event_hash (wLogBase.events.getD 0 []) "" "s") "s")
        wTamperedEvent1.hashField]) :=
  have hs : wTamperedEvent1.hashField =
      ((add_hash_chain ⟨"s", [wLogBase.events.getD 0 [], wLogBase.events.getD 1 [],
        wLogBase.events.getD 2 []], none⟩).events.getD 1 []).hashField := by decide
  have ha : compute_event_hash wTamperedEvent1
      (compute_event_hash (wLogBase.events.getD 0 []) "" "s") "s" ≠
      wTamperedEvent1.hashField := by decide
  ⟨hs, ha, (tampered_event1_single_report "s" _ _ _ wTamperedEvent1 hs ha).1⟩

/-- C2: for every log document, running the chain verifier on the result
of `add_hash_chain` applied to that log reports the chain as fully intact:
the aggregate boolean of `verify_hash_chain` is `true`, in verbose and
non-verbose mode alike. -/
theorem roundtrip_verify_of_add_hash_chain (log : ProcessLog) (verbose : Bool) :
    (verify_hash_chain (add_hash_chain log) verbose).1 = true :=
  verify_add_aux log verbose

/-- C5: `add_hash_chain` is idempotent — applying it twice yields the very
same document as applying it once: identical `_hash` values on every event
and an identical `_integrity` block, because the old `_hash` values are
excluded from the encoding that is hashed. -/
theorem add_hash_chain_idempotent (log : ProcessLog) :
    add_hash_chain (add_hash_chain log) = add_hash_chain log := by
  simp [add_hash_chain, addChainGo_idem]

/-- C10: the two verifier implementations agree on the verdict — for every
log, the boolean returned by `verify_process_log` equals the boolean
returned by `verify_hash_chain` (for either verbosity), even though the
former stops at the first mismatch and the latter completes the replay. -/
theorem verify_process_log_agrees_verify_hash_chain (log : ProcessLog) (verbose : Bool) :
    (verify_process_log log).1 = (verify_hash_chain log verbose).1 := by
  have h := vplGo_verifyEventsGo log.session_id verbose log.events 0 ""
  unfold verify_process_log verify_hash_chain
  rcases hv : vplGo log.session_id log.events 0 "" with ⟨od, p⟩
  rw [hv] at h
  cases od with
  | some d =>
    have hf : (verifyEventsGo log.session_id verbose log.events 0 "").1 = false :=
      h.2 (by simp)
    simp only [hv, hf]
    by_cases hh : headHashOf log.integrity = ""
    · simp [hh]
    · by_cases hm : headHashOf log.integrity =
        (verifyEventsGo log.session_id verbose log.events 0 "").2.2
      · have hc : ¬ (headHashOf log.integrity ≠
            (verifyEventsGo log.session_id verbose log.events 0 "").2.2) := by simp [hm]
        cases verbose <;> simp [hh, hc]
      · simp [hh, hm]
  | none =>
    have ht := h.1 rfl
    simp only [hv]
    by_cases hh : headHashOf log.integrity = ""
    · simp [hh, ht.1]
    · by_cases hm : headHashOf log.integrity = p
      · have hc : ¬ (headHashOf log.integrity ≠
            (verifyEventsGo log.session_id verbose log.events 0 "").2.2) := by
          simp [hm, ht.2]
        cases verbose <;> (simp [hh, hc, ht.1]; try simp [hm])
      · have hc : headHashOf log.integrity ≠
            (verifyEventsGo log.session_id verbose log.events 0 "").2.2 := by
          rw [ht.2]; exact hm
        simp [hh, hc, ht.1]
        try simp [hm]

end TWFF
